import Mathlib

set_option maxRecDepth 100000

/-!
Verification of the PNG metadata-injection core of the repository
(file src/App.tsx): the CRC-32 table and checksum function, and the
addPngMetadata routine that splices a tEXt chunk into a PNG byte stream.

Byte buffers are modelled as lists of natural numbers (a decoded
Uint8Array always holds values below 256; hypotheses state this bound
where a result depends on it).  All 32-bit JavaScript bit operations are
modelled on Nat: the unsigned reinterpretation of every intermediate
value is below two to the 32, so xor, right shifts (division) and masks
(mod) agree bit for bit with the source.  A DataView read that runs past
the end of the buffer and a Uint8Array.set with an out-of-range offset
throw RangeError in JavaScript; both are modelled with Except.
-/

namespace PngMeta

/-- One polynomial-division step on the running CRC value, exactly the
body of the inner loop building crcTable in src/App.tsx (lines 19-25):
if the low bit is set, shift right one bit and xor with 0xedb88320,
otherwise shift right one bit. -/
def crcStep (c : Nat) : Nat :=
  if c % 2 = 1 then 0xedb88320 ^^^ (c / 2) else c / 2

/-- The inner loop of the table construction: k remaining iterations of
the step applied to the running value c (source lines 19-25, looping k
from 0 to 7). -/
def crcInner : Nat → Nat → Nat
  | c, 0 => c
  | c, k + 1 => crcInner (if c % 2 = 1 then 0xedb88320 ^^^ (c / 2) else c / 2) k

/-- The 256-entry CRC table of src/App.tsx lines 16-27: entry n is the
result of eight inner-loop iterations started from n. -/
def crcTable : List Nat :=
  (List.range 256).map (fun n => crcInner n 8)

/-- The loop of crc32 (source lines 31-33): for each byte, look up the
table at the low eight bits of crc xor byte and xor the entry with crc
shifted right eight bits. -/
def crc32Go : Nat → List Nat → Nat
  | crc, [] => crc
  | crc, byte :: rest =>
      crc32Go ((crcTable.getD ((crc ^^^ byte) % 256) 0) ^^^ (crc / 256)) rest

/-- The checksum function crc32 of src/App.tsx lines 29-35: accumulator
starts at 0xffffffff, is folded over the buffer, and is finally xored
with 0xffffffff.  The value is the unsigned 32-bit reading of the
number the source returns. -/
def crc32 (buf : List Nat) : Nat :=
  (crc32Go 0xffffffff buf) ^^^ 0xffffffff

/-- Reference reflected CRC-32, written from the specification text
(spec section 4.1): per byte, xor the byte into the accumulator and
apply eight polynomial-division steps; initial value all-ones, final
xor all-ones, polynomial 0xEDB88320. -/
def crcRefByte (crc byte : Nat) : Nat :=
  crcStep^[8] (crc ^^^ byte)

/-- Reference CRC-32 checksum over a byte sequence (spec section 4.1). -/
def crc32Ref (buf : List Nat) : Nat :=
  (buf.foldl crcRefByte 0xffffffff) ^^^ 0xffffffff

/-! ## Bitwise helper lemmas -/

theorem xor_mod_two_pow (a b k : Nat) :
    (a ^^^ b) % 2 ^ k = (a % 2 ^ k) ^^^ (b % 2 ^ k) := by
  apply Nat.eq_of_testBit_eq
  intro i
  by_cases h : i < k <;>
    simp [Nat.testBit_mod_two_pow, Nat.testBit_xor, h]

theorem xor_div_two_pow (a b k : Nat) :
    (a ^^^ b) / 2 ^ k = (a / 2 ^ k) ^^^ (b / 2 ^ k) := by
  apply Nat.eq_of_testBit_eq
  intro i
  simp [← Nat.shiftRight_eq_div_pow, Nat.testBit_shiftRight, Nat.testBit_xor]

/-- Splitting a natural number at bit k: the low bits xor the shifted
high bits recover the number. -/
theorem xor_mod_mul_div (x k : Nat) :
    (x % 2 ^ k) ^^^ (2 ^ k * (x / 2 ^ k)) = x := by
  apply Nat.eq_of_testBit_eq
  intro i
  rcases Nat.lt_or_ge i k with h | h
  · have h2 : ¬ k ≤ i := by omega
    simp [Nat.testBit_xor, Nat.testBit_mod_two_pow, h, Nat.mul_comm (2 ^ k),
      ← Nat.shiftLeft_eq, Nat.testBit_shiftLeft, h2]
  · have h2 : ¬ i < k := by omega
    have h3 : k + (i - k) = i := by omega
    simp [Nat.testBit_xor, Nat.testBit_mod_two_pow, h2, h, Nat.mul_comm (2 ^ k),
      ← Nat.shiftLeft_eq, Nat.testBit_shiftLeft, ← Nat.shiftRight_eq_div_pow,
      Nat.testBit_shiftRight, h3]

/-- A polynomial-division step ignores bits above the first: stepping
a xor 2b equals stepping a, xor b. -/
theorem crcStep_xor_double (a b : Nat) :
    crcStep (a ^^^ 2 * b) = (crcStep a) ^^^ b := by
  have hmod : (a ^^^ 2 * b) % 2 = a % 2 := by
    have h := xor_mod_two_pow a (2 * b) 1
    simp only [pow_one, Nat.mul_mod_right, Nat.xor_zero] at h
    exact h
  have hdiv : (a ^^^ 2 * b) / 2 = (a / 2) ^^^ b := by
    have h := xor_div_two_pow a (2 * b) 1
    simpa [Nat.mul_div_cancel_left b (by norm_num : (0:Nat) < 2)] using h
  unfold crcStep
  rw [hmod, hdiv]
  by_cases h : a % 2 = 1 <;> simp [h, Nat.xor_assoc]

/-- Eight-fold (in general k-fold) iteration of the step ignores bits
above the k-th, which come out as a plain xor. -/
theorem crcStep_iterate_xor (k : Nat) : ∀ a b : Nat,
    crcStep^[k] (a ^^^ 2 ^ k * b) = (crcStep^[k] a) ^^^ b := by
  induction k with
  | zero => intro a b; simp
  | succ k ih =>
      intro a b
      have h1 : (2 : Nat) ^ (k + 1) * b = 2 * (2 ^ k * b) := by ring
      rw [h1, Function.iterate_succ_apply, Function.iterate_succ_apply,
        crcStep_xor_double, ih]

theorem crcInner_eq_iterate (k : Nat) : ∀ c : Nat,
    crcInner c k = crcStep^[k] c := by
  induction k with
  | zero => intro c; rfl
  | succ k ih =>
      intro c
      rw [Function.iterate_succ_apply]
      show crcInner (if c % 2 = 1 then 0xedb88320 ^^^ (c / 2) else c / 2) k
        = crcStep^[k] (crcStep c)
      rw [ih]
      rfl

theorem crcTable_getD (n : Nat) (h : n < 256) :
    crcTable.getD n 0 = crcInner n 8 := by
  have hn : n < (List.range 256).length := by simpa using h
  rw [crcTable, List.getD_eq_getElem _ _ (by simpa using h)]
  simp

/-- Correctness of one table-driven byte step against eight explicit
polynomial-division steps. -/
theorem table_step (x : Nat) :
    (crcTable.getD (x % 256) 0) ^^^ (x / 256) = crcStep^[8] x := by
  rw [crcTable_getD (x % 256) (Nat.mod_lt x (by norm_num)), crcInner_eq_iterate]
  have h : (256 : Nat) = 2 ^ 8 := by norm_num
  conv_rhs => rw [← xor_mod_mul_div x 8]
  rw [crcStep_iterate_xor 8 (x % 2 ^ 8) (x / 2 ^ 8), h]

theorem crc32Go_eq_ref (buf : List Nat) : ∀ crc : Nat,
    (∀ x ∈ buf, x < 256) → crc32Go crc buf = buf.foldl crcRefByte crc := by
  induction buf with
  | nil => intro crc _; rfl
  | cons byte rest ih =>
      intro crc hb
      have hbyte : byte < 256 := hb byte (by simp)
      have hx : (crc ^^^ byte) / 256 = crc / 256 := by
        have h := xor_div_two_pow crc byte 8
        have h2 : byte / 256 = 0 := Nat.div_eq_of_lt hbyte
        simpa [h2] using h
      show crc32Go ((crcTable.getD ((crc ^^^ byte) % 256) 0) ^^^ (crc / 256)) rest
        = List.foldl crcRefByte (crcRefByte crc byte) rest
      rw [ih _ (fun x hxm => hb x (by simp [hxm]))]
      have hstep : (crcTable.getD ((crc ^^^ byte) % 256) 0) ^^^ (crc / 256)
          = crcRefByte crc byte := by
        rw [← hx]
        exact table_step (crc ^^^ byte)
      rw [hstep]

theorem crc32_eq_ref (buf : List Nat) (h : ∀ x ∈ buf, x < 256) :
    crc32 buf = crc32Ref buf := by
  unfold crc32 crc32Ref
  rw [crc32Go_eq_ref buf 0xffffffff h]

/-! ## The PNG chunk injector (addPngMetadata, src/App.tsx lines 38-101)

The routine is modelled from the decoded byte buffer onward: base64
decoding and Blob wrapping are browser glue outside the algorithm, and
on the fallback path fetching the original data URL again yields exactly
the decoded bytes, so the fallback is modelled as returning the input
buffer.  The key and text arguments are modelled by their encoded byte
sequences. -/

/-- The PNG signature check of source line 48: the first four bytes
must exist and equal 137, 80, 78, 71.  Indexing a Uint8Array out of
range yields undefined, which fails the comparison, hence the Option
reads. -/
def pngSigOk (b : List Nat) : Bool :=
  b[0]? == some 137 && b[1]? == some 80 && b[2]? == some 78 && b[3]? == some 71

/-- The tEXt chunk payload (source lines 59-62): key bytes, one zero
byte, text bytes. -/
def mkChunkData (keyBytes textBytes : List Nat) : List Nat :=
  keyBytes ++ [0] ++ textBytes

/-- The four ASCII bytes of the chunk type tag tEXt (source line 64). -/
def tEXtType : List Nat := [116, 69, 88, 116]

/-- Big-endian 4-byte encoding of a 32-bit value, as written by
DataView.setUint32 with littleEndian false (the value is taken modulo
two to the 32). -/
def u32be (v : Nat) : List Nat :=
  [v / 16777216 % 256, v / 65536 % 256, v / 256 % 256, v % 256]

/-- The assembled chunk (source lines 71-79): 4-byte big-endian length
of the payload, the type tag, the payload, and the 4-byte big-endian
CRC-32 over type tag plus payload. -/
def mkFullChunk (keyBytes textBytes : List Nat) : List Nat :=
  u32be (mkChunkData keyBytes textBytes).length ++ tEXtType
    ++ mkChunkData keyBytes textBytes
    ++ u32be (crc32 (tEXtType ++ mkChunkData keyBytes textBytes))

/-- The value of the big-endian 32-bit read DataView.getUint32 performs
on source line 85.  The read itself throws RangeError when the four
bytes run past the end of the buffer; scanFuel checks that bound
explicitly before using this value. -/
def readLen (b : List Nat) (pos : Nat) : Nat :=
  b.getD pos 0 * 16777216 + b.getD (pos + 1) 0 * 65536
    + b.getD (pos + 2) 0 * 256 + b.getD (pos + 3) 0

/-- The four chunk-type bytes read on source line 86.  An out-of-range
Uint8Array index is undefined and String.fromCharCode maps it to
character code zero, which the default value 0 reproduces. -/
def chunkTypeAt (b : List Nat) (pos : Nat) : List Nat :=
  [b.getD (pos + 4) 0, b.getD (pos + 5) 0, b.getD (pos + 6) 0, b.getD (pos + 7) 0]

/-- The chunk-scanning while loop of source lines 83-92, with explicit
fuel (the outer none means the fuel ran out; findInsertPos supplies
enough fuel and theorem scanFuel_isSome shows the loop terminates
before exhausting it).  The inner error models the RangeError a length
read past the end of the buffer throws. -/
def scanFuel : Nat → Nat → List Nat → Option (Except Unit Nat)
  | 0, _, _ => none
  | fuel + 1, pos, b =>
    if pos < b.length then
      if pos + 4 ≤ b.length then
        if chunkTypeAt b pos = [73, 72, 68, 82] then
          some (Except.ok (pos + 12 + readLen b pos))
        else scanFuel fuel (pos + 12 + readLen b pos) b
      else some (Except.error ())
    else some (Except.ok pos)

/-- The insertion offset the source loop computes, starting at byte
offset 8.  Fuel of one more than the buffer length always suffices
(theorem scanFuel_isSome), so the none fallback is unreachable. -/
def findInsertPos (b : List Nat) : Except Unit Nat :=
  match scanFuel (b.length + 1) 8 b with
  | some r => r
  | none => Except.error ()

/-- The whole injector (source lines 38-101) from the decoded buffer
onward.  An error models a thrown RangeError: either a length read past
the buffer end during the scan, or the Uint8Array.set on source line 97
when the insertion offset exceeds the buffer length. -/
def addPngMetadata (b keyBytes textBytes : List Nat) : Except Unit (List Nat) :=
  if pngSigOk b then
    match findInsertPos b with
    | Except.error e => Except.error e
    | Except.ok pos =>
      if pos ≤ b.length then
        Except.ok (b.take pos ++ mkFullChunk keyBytes textBytes ++ b.drop pos)
      else Except.error ()
  else
    Except.ok b

/-- Modelled from the claim text of C2 (spec section 4.2 step 6): scan
chunks from byte offset 8, advance by 12 plus the chunk length, stop
immediately after the chunk whose type is IHDR and return that offset;
if no IHDR chunk is found before the buffer ends, return the buffer
length (append at the end).  The claim text never contemplates a read
running past the buffer, so reads use default byte 0; fuel as in
scanFuel. -/
def insertPosSpecFuel : Nat → Nat → List Nat → Nat
  | 0, pos, _ => pos
  | fuel + 1, pos, b =>
    if pos < b.length then
      if chunkTypeAt b pos = [73, 72, 68, 82] then pos + 12 + readLen b pos
      else insertPosSpecFuel fuel (pos + 12 + readLen b pos) b
    else b.length

/-- Modelled from the claim text of C2: the insertion offset described
by the specification. -/
def insertPosSpec (b : List Nat) : Nat :=
  insertPosSpecFuel (b.length + 1) 8 b

deriving instance DecidableEq for Except

/-! ## Scan loop lemmas -/

/-- Fuel monotonicity: once the scan completes within some fuel, any
larger fuel gives the same answer. -/
theorem scanFuel_mono : ∀ (fuel fuel₂ pos : Nat) (b : List Nat) (x : Except Unit Nat),
    scanFuel fuel pos b = some x → fuel ≤ fuel₂ → scanFuel fuel₂ pos b = some x := by
  intro fuel
  induction fuel with
  | zero =>
      intro fuel₂ pos b x h _
      simp [scanFuel] at h
  | succ fuel ih =>
      intro fuel₂ pos b x h hle
      obtain ⟨f, rfl⟩ : ∃ f, fuel₂ = f + 1 := ⟨fuel₂ - 1, by omega⟩
      rw [scanFuel] at h ⊢
      by_cases hp : pos < b.length
      · rw [if_pos hp] at h ⊢
        by_cases h4 : pos + 4 ≤ b.length
        · rw [if_pos h4] at h ⊢
          by_cases ht : chunkTypeAt b pos = [73, 72, 68, 82]
          · rw [if_pos ht] at h ⊢; exact h
          · rw [if_neg ht] at h ⊢
            exact ih f _ b x h (by omega)
        · rw [if_neg h4] at h ⊢; exact h
      · rw [if_neg hp] at h ⊢; exact h

/-- Fuel sufficiency: the loop advances the cursor by at least 12 each
iteration, so fuel covering the buffer length always completes. -/
theorem scanFuel_isSome : ∀ (fuel pos : Nat) (b : List Nat),
    b.length ≤ pos + 12 * fuel → (scanFuel (fuel + 1) pos b).isSome = true := by
  intro fuel
  induction fuel with
  | zero =>
      intro pos b h
      have hp : ¬ pos < b.length := by omega
      rw [scanFuel, if_neg hp]
      rfl
  | succ fuel ih =>
      intro pos b h
      rw [scanFuel]
      by_cases hp : pos < b.length
      · rw [if_pos hp]
        by_cases h4 : pos + 4 ≤ b.length
        · rw [if_pos h4]
          by_cases ht : chunkTypeAt b pos = [73, 72, 68, 82]
          · rw [if_pos ht]; rfl
          · rw [if_neg ht]
            exact ih (pos + 12 + readLen b pos) b (by omega)
        · rw [if_neg h4]; rfl
      · rw [if_neg hp]; rfl

/-- A successful scan never moves the cursor backwards. -/
theorem scanFuel_le : ∀ (fuel pos r : Nat) (b : List Nat),
    scanFuel fuel pos b = some (Except.ok r) → pos ≤ r := by
  intro fuel
  induction fuel with
  | zero => intro pos r b h; simp [scanFuel] at h
  | succ fuel ih =>
      intro pos r b h
      rw [scanFuel] at h
      by_cases hp : pos < b.length
      · rw [if_pos hp] at h
        by_cases h4 : pos + 4 ≤ b.length
        · rw [if_pos h4] at h
          by_cases ht : chunkTypeAt b pos = [73, 72, 68, 82]
          · rw [if_pos ht] at h
            have : pos + 12 + readLen b pos = r := by
              have := Option.some.inj h
              exact Except.ok.inj this
            omega
          · rw [if_neg ht] at h
            have := ih (pos + 12 + readLen b pos) r b h
            omega
        · rw [if_neg h4] at h
          simp at h
      · rw [if_neg hp] at h
        have : pos = r := Except.ok.inj (Option.some.inj h)
        omega

/-- A successful in-bounds scan computes exactly the insertion offset
described by the specification text. -/
theorem scanFuel_spec_agree : ∀ (fuel pos r : Nat) (b : List Nat),
    scanFuel fuel pos b = some (Except.ok r) → r ≤ b.length →
    insertPosSpecFuel fuel pos b = r := by
  intro fuel
  induction fuel with
  | zero => intro pos r b h _; simp [scanFuel] at h
  | succ fuel ih =>
      intro pos r b h hr
      rw [scanFuel] at h
      rw [insertPosSpecFuel]
      by_cases hp : pos < b.length
      · rw [if_pos hp] at h ⊢
        by_cases h4 : pos + 4 ≤ b.length
        · rw [if_pos h4] at h
          by_cases ht : chunkTypeAt b pos = [73, 72, 68, 82]
          · rw [if_pos ht] at h ⊢
            exact Except.ok.inj (Option.some.inj h)
          · rw [if_neg ht] at h ⊢
            exact ih _ r b h hr
        · rw [if_neg h4] at h
          simp at h
      · rw [if_neg hp] at h ⊢
        have : pos = r := Except.ok.inj (Option.some.inj h)
        omega

/-- Reading with default 0 below position r sees only the preserved
prefix of the buffer. -/
theorem getD_take_append (b tail : List Nat) (r i : Nat) (hi : i < r) (hr : r ≤ b.length) :
    (b.take r ++ tail).getD i 0 = b.getD i 0 := by
  have h1 : i < (b.take r).length := by rw [List.length_take]; omega
  rw [List.getD_append _ _ _ _ h1, List.getD_eq_getElem _ _ h1,
    List.getD_eq_getElem _ _ (by omega : i < b.length)]
  simp

/-- The length read agrees between a buffer and any extension that
preserves its first r bytes, when the read lies below r. -/
theorem readLen_take_append (b tail : List Nat) (r pos : Nat) (h8 : pos + 4 ≤ r) (hr : r ≤ b.length) :
    readLen (b.take r ++ tail) pos = readLen b pos := by
  unfold readLen
  rw [getD_take_append b tail r pos (by omega) hr,
    getD_take_append b tail r (pos + 1) (by omega) hr,
    getD_take_append b tail r (pos + 2) (by omega) hr,
    getD_take_append b tail r (pos + 3) (by omega) hr]

/-- The chunk type read agrees between a buffer and any extension that
preserves its first r bytes, when the read lies below r. -/
theorem chunkTypeAt_take_append (b tail : List Nat) (r pos : Nat) (h8 : pos + 8 ≤ r)
    (hr : r ≤ b.length) :
    chunkTypeAt (b.take r ++ tail) pos = chunkTypeAt b pos := by
  unfold chunkTypeAt
  rw [getD_take_append b tail r (pos + 4) (by omega) hr,
    getD_take_append b tail r (pos + 5) (by omega) hr,
    getD_take_append b tail r (pos + 6) (by omega) hr,
    getD_take_append b tail r (pos + 7) (by omega) hr]

/-- Replaying the scan on a buffer whose first r bytes are preserved:
if the original scan succeeded in bounds with result r, then on the
modified buffer the scan either stops at the same offset r (the IHDR
break), or the original scan fell off the end of the buffer, r is the
buffer length, and the replayed scan continues from r as a fresh scan
of the modified buffer. -/
theorem scanFuel_replay : ∀ (fuel pos r : Nat) (b tail : List Nat),
    scanFuel fuel pos b = some (Except.ok r) → r ≤ b.length →
    (∀ fuel₂, fuel ≤ fuel₂ → scanFuel fuel₂ pos (b.take r ++ tail) = some (Except.ok r))
    ∨ (r = b.length ∧ ∀ (fuel₂ : Nat) (x : Except Unit Nat),
        scanFuel fuel₂ r (b.take r ++ tail) = some x →
        scanFuel (fuel + fuel₂) pos (b.take r ++ tail) = some x) := by
  intro fuel
  induction fuel with
  | zero => intro pos r b tail h _; simp [scanFuel] at h
  | succ fuel ih =>
      intro pos r b tail h hr
      have hBlen : r ≤ (b.take r ++ tail).length := by
        rw [List.length_append, List.length_take]; omega
      rw [scanFuel] at h
      by_cases hp : pos < b.length
      · rw [if_pos hp] at h
        by_cases h4 : pos + 4 ≤ b.length
        · rw [if_pos h4] at h
          by_cases ht : chunkTypeAt b pos = [73, 72, 68, 82]
          · rw [if_pos ht] at h
            have hr12 : pos + 12 + readLen b pos = r := Except.ok.inj (Option.some.inj h)
            left
            intro fuel₂ hle
            obtain ⟨f, rfl⟩ : ∃ f, fuel₂ = f + 1 := ⟨fuel₂ - 1, by omega⟩
            have h8 : pos + 8 ≤ r := by omega
            rw [scanFuel,
              if_pos (show pos < (b.take r ++ tail).length by omega),
              if_pos (show pos + 4 ≤ (b.take r ++ tail).length by omega),
              if_pos ((chunkTypeAt_take_append b tail r pos h8 hr).trans ht),
              readLen_take_append b tail r pos (by omega) hr, hr12]
          · rw [if_neg ht] at h
            have hnext : pos + 12 + readLen b pos ≤ r := scanFuel_le fuel _ r b h
            have h8 : pos + 8 ≤ r := by omega
            have hstep : ∀ k, scanFuel (k + 1) pos (b.take r ++ tail)
                = scanFuel k (pos + 12 + readLen b pos) (b.take r ++ tail) := by
              intro k
              rw [scanFuel,
                if_pos (show pos < (b.take r ++ tail).length by omega),
                if_pos (show pos + 4 ≤ (b.take r ++ tail).length by omega),
                if_neg (fun hc => ht ((chunkTypeAt_take_append b tail r pos h8 hr).symm.trans hc)),
                readLen_take_append b tail r pos (by omega) hr]
            rcases ih _ r b tail h hr with hleft | ⟨hrb, hcont⟩
            · left
              intro fuel₂ hle
              obtain ⟨f, rfl⟩ : ∃ f, fuel₂ = f + 1 := ⟨fuel₂ - 1, by omega⟩
              rw [hstep f]
              exact hleft f (by omega)
            · right
              refine ⟨hrb, fun fuel₂ x hx => ?_⟩
              have : fuel + 1 + fuel₂ = (fuel + fuel₂) + 1 := by omega
              rw [this, hstep (fuel + fuel₂)]
              exact hcont fuel₂ x hx
        · rw [if_neg h4] at h
          simp at h
      · rw [if_neg hp] at h
        have hpr : pos = r := Except.ok.inj (Option.some.inj h)
        have hrb : r = b.length := by omega
        right
        refine ⟨hrb, fun fuel₂ x hx => ?_⟩
        subst hpr
        exact scanFuel_mono fuel₂ (fuel + 1 + fuel₂) pos _ x hx (by omega)

/-! ## Chunk layout and glue lemmas -/

theorem length_u32be (v : Nat) : (u32be v).length = 4 := rfl

theorem length_mkChunkData (kb tb : List Nat) :
    (mkChunkData kb tb).length = kb.length + 1 + tb.length := by
  simp [mkChunkData]
  omega

theorem length_mkFullChunk (kb tb : List Nat) :
    (mkFullChunk kb tb).length = 12 + (kb.length + 1 + tb.length) := by
  simp [mkFullChunk, length_u32be, tEXtType, length_mkChunkData]
  omega

/-- Reading a 32-bit length right at the seam of an appended block sees
only the block. -/
theorem readLen_append (b l : List Nat) : readLen (b ++ l) b.length = readLen l 0 := by
  unfold readLen
  rw [List.getD_append_right _ _ _ _ (by omega),
    List.getD_append_right _ _ _ _ (by omega),
    List.getD_append_right _ _ _ _ (by omega),
    List.getD_append_right _ _ _ _ (by omega)]
  have e0 : b.length - b.length = 0 := by omega
  have e1 : b.length + 1 - b.length = 1 := by omega
  have e2 : b.length + 2 - b.length = 2 := by omega
  have e3 : b.length + 3 - b.length = 3 := by omega
  rw [e0, e1, e2, e3]

/-- Reading a chunk type right at the seam of an appended block sees
only the block. -/
theorem chunkTypeAt_append (b l : List Nat) :
    chunkTypeAt (b ++ l) b.length = chunkTypeAt l 0 := by
  unfold chunkTypeAt
  rw [List.getD_append_right _ _ _ _ (by omega),
    List.getD_append_right _ _ _ _ (by omega),
    List.getD_append_right _ _ _ _ (by omega),
    List.getD_append_right _ _ _ _ (by omega)]
  have e4 : b.length + 4 - b.length = 4 := by omega
  have e5 : b.length + 5 - b.length = 5 := by omega
  have e6 : b.length + 6 - b.length = 6 := by omega
  have e7 : b.length + 7 - b.length = 7 := by omega
  rw [e4, e5, e6, e7]

/-- The length field of an assembled chunk decodes to the payload
length modulo two to the 32. -/
theorem readLen_mkFullChunk (kb tb : List Nat) :
    readLen (mkFullChunk kb tb) 0 = (mkChunkData kb tb).length % 4294967296 := by
  unfold mkFullChunk readLen u32be
  simp [List.getD, List.append_assoc]
  omega

/-- The type field of an assembled chunk is the tEXt tag. -/
theorem chunkTypeAt_mkFullChunk (kb tb : List Nat) :
    chunkTypeAt (mkFullChunk kb tb) 0 = [116, 69, 88, 116] := by
  unfold mkFullChunk chunkTypeAt u32be tEXtType
  simp [List.getD, List.append_assoc]

/-- Scanning resumed at the start of a freshly appended chunk steps
over that chunk and exits at the end of the buffer. -/
theorem scanFuel_over_chunk (b kb tb : List Nat)
    (hcd : (mkChunkData kb tb).length < 4294967296) :
    scanFuel 2 b.length (b ++ mkFullChunk kb tb)
      = some (Except.ok (b ++ mkFullChunk kb tb).length) := by
  have hC : (mkFullChunk kb tb).length = 12 + (mkChunkData kb tb).length := by
    rw [length_mkFullChunk, length_mkChunkData]
  have hlen : (b ++ mkFullChunk kb tb).length = b.length + (mkFullChunk kb tb).length :=
    List.length_append _ _
  have hread : readLen (b ++ mkFullChunk kb tb) b.length = (mkChunkData kb tb).length := by
    rw [readLen_append, readLen_mkFullChunk, Nat.mod_eq_of_lt hcd]
  have htype : chunkTypeAt (b ++ mkFullChunk kb tb) b.length = [116, 69, 88, 116] := by
    rw [chunkTypeAt_append, chunkTypeAt_mkFullChunk]
  rw [scanFuel, if_pos (by omega), if_pos (by omega),
    if_neg (by rw [htype]; decide), hread]
  rw [scanFuel, if_neg (by omega)]
  congr 1
  congr 1
  omega

/-- Unfolding findInsertPos on a successful scan. -/
theorem findInsertPos_eq (b : List Nat) (r : Except Unit Nat)
    (h : scanFuel (b.length + 1) 8 b = some r) : findInsertPos b = r := by
  unfold findInsertPos
  rw [h]

/-- Recovering the successful scan from findInsertPos. -/
theorem findInsertPos_some (b : List Nat) (r : Nat)
    (h : findInsertPos b = Except.ok r) :
    scanFuel (b.length + 1) 8 b = some (Except.ok r) := by
  unfold findInsertPos at h
  cases hs : scanFuel (b.length + 1) 8 b with
  | none => rw [hs] at h; simp at h
  | some x => rw [hs] at h; simp at h; rw [h]

/-- The injection path: with the signature valid and the scan
succeeding in bounds, the output is the splice of the chunk at the
found offset. -/
theorem addPngMetadata_ok (b kb tb : List Nat) (r : Nat)
    (hsig : pngSigOk b = true)
    (hpos : findInsertPos b = Except.ok r) (hr : r ≤ b.length) :
    addPngMetadata b kb tb
      = Except.ok (b.take r ++ mkFullChunk kb tb ++ b.drop r) := by
  unfold addPngMetadata
  rw [if_pos hsig]
  split
  · next e heq => rw [hpos] at heq; simp at heq
  · next pos heq =>
      rw [hpos] at heq
      have hp : pos = r := (Except.ok.inj heq).symm
      subst hp
      rw [if_pos hr]

/-- Inversion of the injection path: a successful injection on a
signature-valid buffer comes from an in-bounds scan result and is the
corresponding splice. -/
theorem addPngMetadata_ok_inv (b kb tb out : List Nat)
    (hsig : pngSigOk b = true)
    (h : addPngMetadata b kb tb = Except.ok out) :
    ∃ pos, findInsertPos b = Except.ok pos ∧ pos ≤ b.length ∧
      out = b.take pos ++ mkFullChunk kb tb ++ b.drop pos := by
  unfold addPngMetadata at h
  rw [if_pos hsig] at h
  split at h
  · simp at h
  · next pos heq =>
      split at h
      · next hle => exact ⟨pos, heq, hle, (Except.ok.inj h).symm⟩
      · simp at h

/-- Option indexing below position r sees only the preserved prefix. -/
theorem getElem?_take_append (b tail : List Nat) (r i : Nat) (hi : i < r) (hr : r ≤ b.length) :
    (b.take r ++ tail)[i]? = b[i]? := by
  rw [List.getElem?_append_left (by rw [List.length_take]; omega)]
  rw [List.getElem?_take]
  simp [hi]

/-- The signature check only looks at the first four bytes, which a
splice at offset at least 4 preserves. -/
theorem pngSigOk_take_append (b tail : List Nat) (r : Nat) (h4 : 4 ≤ r) (hr : r ≤ b.length)
    (hsig : pngSigOk b = true) : pngSigOk (b.take r ++ tail) = true := by
  unfold pngSigOk at hsig ⊢
  rw [getElem?_take_append b tail r 0 (by omega) hr,
    getElem?_take_append b tail r 1 (by omega) hr,
    getElem?_take_append b tail r 2 (by omega) hr,
    getElem?_take_append b tail r 3 (by omega) hr]
  exact hsig

/-- A minimal PNG-like buffer used as a concrete witness input: the
8-byte signature followed by a zero-length IHDR chunk that is the last
chunk of the buffer. -/
def pngMinimal : List Nat :=
  [137, 80, 78, 71, 13, 10, 26, 10, 0, 0, 0, 0, 73, 72, 68, 82, 0, 0, 0, 0]

/-- The fallback path: a failed signature check returns the input
buffer unchanged and raises no error. -/
theorem addPngMetadata_fallback (b kb tb : List Nat) (h : pngSigOk b = false) :
    addPngMetadata b kb tb = Except.ok b := by
  unfold addPngMetadata
  rw [if_neg (by simp [h])]

/-! ## Claim theorems -/

/-- Claim C1: the checksum function implements standard reflected
CRC-32 (polynomial 0xEDB88320, initial accumulator 0xFFFFFFFF, final
xor with 0xFFFFFFFF): on every byte sequence it matches the reference
CRC-32 definition bit for bit; the checksum of the empty sequence is 0
and the checksum of the ASCII bytes of 123456789 is 0xCBF43926. -/
theorem claim_C1_crc32_matches_reference :
    (∀ buf : List Nat, (∀ x ∈ buf, x < 256) → crc32 buf = crc32Ref buf)
    ∧ crc32 [] = 0
    ∧ crc32 [49, 50, 51, 52, 53, 54, 55, 56, 57] = 0xCBF43926 :=
  ⟨crc32_eq_ref, by decide, by decide⟩

/-- Witness for claim C1 at a concrete byte sequence. -/
theorem claim_C1_witness :
    crc32 [0, 255, 137, 1] = crc32Ref [0, 255, 137, 1] :=
  claim_C1_crc32_matches_reference.1 [0, 255, 137, 1] (by decide)

/-- Claim C3: for every key and text, the assembled chunk has exactly
the layout 4-byte big-endian length of the payload, the four ASCII
bytes of tEXt, the payload key bytes then one zero byte then text
bytes, then the 4-byte big-endian CRC-32 over the type tag followed by
the payload; the total size is 4 + 4 + payload + 4 bytes. -/
theorem claim_C3_chunk_layout (kb tb : List Nat) :
    mkFullChunk kb tb
      = u32be (kb.length + 1 + tb.length) ++ tEXtType ++ (kb ++ [0] ++ tb)
        ++ u32be (crc32 (tEXtType ++ (kb ++ [0] ++ tb)))
    ∧ (mkFullChunk kb tb).length = 4 + 4 + (kb.length + 1 + tb.length) + 4 := by
  constructor
  · unfold mkFullChunk
    rw [length_mkChunkData]
    rfl
  · rw [length_mkFullChunk]
    omega

/-- Claim C5: a decoded buffer whose first four bytes are not the PNG
signature prefix takes the fallback path: no chunk surgery, the
original content is returned byte-identical, and no error is raised. -/
theorem claim_C5_non_png_fallback (b kb tb : List Nat) (h : pngSigOk b = false) :
    addPngMetadata b kb tb = Except.ok b :=
  addPngMetadata_fallback b kb tb h

/-- Witness for claim C5 on the first bytes of a JPEG. -/
theorem claim_C5_witness :
    addPngMetadata [255, 216, 255, 224, 0, 16] [75] [86]
      = Except.ok [255, 216, 255, 224, 0, 16] :=
  claim_C5_non_png_fallback [255, 216, 255, 224, 0, 16] [75] [86] (by decide)

/-- Claim C8: for every index n from 0 to 255 the CRC table entry at n
is the result of eight polynomial-division iterations started from n
(shift right, conditionally xor 0xEDB88320); the table is a fixed
256-entry constant, never modified after construction (in this
functional model it is a closed term). -/
theorem claim_C8_table_entries (n : Nat) (h : n < 256) :
    crcTable.getD n 0 = crcStep^[8] n ∧ crcTable.length = 256 := by
  refine ⟨?_, by simp [crcTable]⟩
  rw [crcTable_getD n h, crcInner_eq_iterate]

/-- Witness for claim C8 at a concrete index. -/
theorem claim_C8_witness :
    crcTable.getD 200 0 = crcStep^[8] 200 ∧ crcTable.length = 256 :=
  claim_C8_table_entries 200 (by decide)

/-- Claim C9: the chunk-scanning loop terminates on every input
buffer: the cursor advances by at least 12 each iteration, so any fuel
covering the buffer length (in particular the fuel findInsertPos
supplies) completes the scan. -/
theorem claim_C9_scan_terminates :
    (∀ (b : List Nat) (fuel pos : Nat), b.length ≤ pos + 12 * fuel →
      (scanFuel (fuel + 1) pos b).isSome = true)
    ∧ ∀ b : List Nat, (scanFuel (b.length + 1) 8 b).isSome = true := by
  refine ⟨fun b fuel pos h => scanFuel_isSome fuel pos b h, fun b => ?_⟩
  exact scanFuel_isSome b.length 8 b (by omega)

/-- Witness for claim C9 at a concrete buffer and fuel. -/
theorem claim_C9_witness :
    (scanFuel (2 + 1) 8 [137, 80, 78, 71, 13, 10, 26, 10, 9, 9]).isSome = true :=
  claim_C9_scan_terminates.1 [137, 80, 78, 71, 13, 10, 26, 10, 9, 9] 2 8 (by decide)

/-- Claim C10: a decoded payload shorter than four bytes (including
the empty one) fails the signature check, so the injector takes the
fallback path and returns the original content with no chunk surgery
and no out-of-range read. -/
theorem claim_C10_short_buffer (b kb tb : List Nat) (h : b.length < 4) :
    pngSigOk b = false ∧ addPngMetadata b kb tb = Except.ok b := by
  have hsig : pngSigOk b = false := by
    unfold pngSigOk
    have h3 : b[3]? = none := by rw [List.getElem?_eq_none]; omega
    rw [h3]
    simp
  exact ⟨hsig, addPngMetadata_fallback b kb tb hsig⟩

/-- Witness for claim C10 on a 3-byte buffer that agrees with the
signature prefix as far as it goes. -/
theorem claim_C10_witness :
    pngSigOk [137, 80, 78] = false
      ∧ addPngMetadata [137, 80, 78] [75] [86] = Except.ok [137, 80, 78] :=
  claim_C10_short_buffer [137, 80, 78] [75] [86] (by decide)

/-- Counterexample to claim C2 as stated: this 10-byte buffer passes
the signature check and contains no IHDR chunk, so the claim says the
new chunk is appended at the end of the buffer; instead the first
4-byte length read (at offset 8, needing bytes 8 to 11 of a 10-byte
buffer) runs past the end and the routine throws a RangeError
(modelled as an error), producing no output at all. -/
theorem claim_C2_counterexample :
    pngSigOk [137, 80, 78, 71, 0, 0, 0, 0, 1, 2] = true
    ∧ addPngMetadata [137, 80, 78, 71, 0, 0, 0, 0, 1, 2] [75] [86] = Except.error ()
    ∧ addPngMetadata [137, 80, 78, 71, 0, 0, 0, 0, 1, 2] [75] [86]
        ≠ Except.ok ([137, 80, 78, 71, 0, 0, 0, 0, 1, 2] ++ mkFullChunk [75] [86]) :=
  ⟨by decide, by decide, by decide⟩

/-- Claim C2 as amended: for every buffer passing the signature check
on which the scan from offset 8 succeeds with all 4-byte length reads
in bounds and a resulting offset not exceeding the buffer length, the
insertion offset is exactly the one the claim describes (stop
immediately after the IHDR chunk, advancing by 12 plus length per
chunk regardless of type, append at the buffer end when no IHDR is
found), and the chunk is spliced at that offset; when a length read
runs past the buffer end, or the post-IHDR offset exceeds the buffer
length, the routine instead throws a RangeError. -/
theorem claim_C2_insertion_offset (b kb tb : List Nat) (pos : Nat)
    (hsig : pngSigOk b = true)
    (hpos : findInsertPos b = Except.ok pos) (hle : pos ≤ b.length) :
    pos = insertPosSpec b
    ∧ addPngMetadata b kb tb
        = Except.ok (b.take pos ++ mkFullChunk kb tb ++ b.drop pos) := by
  constructor
  · unfold insertPosSpec
    exact (scanFuel_spec_agree (b.length + 1) 8 pos b (findInsertPos_some b pos hpos) hle).symm
  · exact addPngMetadata_ok b kb tb pos hsig hpos hle

/-- Witness for the amended claim C2 on a minimal buffer whose IHDR
chunk is the last chunk: the insertion is immediately after it, at the
very end of the buffer. -/
theorem claim_C2_witness :
    (20 : Nat) = insertPosSpec pngMinimal
    ∧ addPngMetadata pngMinimal [75] [86]
        = Except.ok (pngMinimal.take 20 ++ mkFullChunk [75] [86] ++ pngMinimal.drop 20) :=
  claim_C2_insertion_offset pngMinimal [75] [86] 20 (by decide) (by decide) (by decide)

/-- Claim C4: whenever the signature check passes and the injector
produces an output buffer, that buffer is longer than the input by
exactly 12 + len(key) + 1 + len(text) bytes. -/
theorem claim_C4_output_length (b kb tb out : List Nat)
    (hsig : pngSigOk b = true)
    (hout : addPngMetadata b kb tb = Except.ok out) :
    out.length = b.length + (12 + kb.length + 1 + tb.length) := by
  obtain ⟨pos, _, hle, hsp⟩ := addPngMetadata_ok_inv b kb tb out hsig hout
  subst hsp
  simp [List.length_append, List.length_take, List.length_drop, length_mkFullChunk]
  omega

/-- Witness for claim C4: injecting into the minimal buffer with key
Description and text hello grows it by 12 + 11 + 1 + 5 bytes. -/
theorem claim_C4_witness :
    (pngMinimal
        ++ mkFullChunk [68, 101, 115, 99, 114, 105, 112, 116, 105, 111, 110]
          [104, 101, 108, 108, 111]).length
      = pngMinimal.length + (12 + 11 + 1 + 5) :=
  claim_C4_output_length pngMinimal
    [68, 101, 115, 99, 114, 105, 112, 116, 105, 111, 110] [104, 101, 108, 108, 111]
    (pngMinimal
      ++ mkFullChunk [68, 101, 115, 99, 114, 105, 112, 116, 105, 111, 110]
        [104, 101, 108, 108, 111])
    (by decide) (by decide)

/-- Claim C6: on the injection path every original byte is preserved:
the output is the original bytes before the insertion offset, the
assembled chunk, then the original bytes from the offset onward, and
the two original parts reassemble the whole input. -/
theorem claim_C6_bytes_preserved (b kb tb out : List Nat)
    (hsig : pngSigOk b = true)
    (hout : addPngMetadata b kb tb = Except.ok out) :
    ∃ pos, pos ≤ b.length
      ∧ out = b.take pos ++ mkFullChunk kb tb ++ b.drop pos
      ∧ b.take pos ++ b.drop pos = b := by
  obtain ⟨pos, _, hle, hsp⟩ := addPngMetadata_ok_inv b kb tb out hsig hout
  exact ⟨pos, hle, hsp, List.take_append_drop pos b⟩

/-- Witness for claim C6 on the minimal buffer. -/
theorem claim_C6_witness :
    ∃ pos, pos ≤ pngMinimal.length
      ∧ pngMinimal ++ mkFullChunk [75] [86]
          = pngMinimal.take pos ++ mkFullChunk [75] [86] ++ pngMinimal.drop pos
      ∧ pngMinimal.take pos ++ pngMinimal.drop pos = pngMinimal :=
  claim_C6_bytes_preserved pngMinimal [75] [86] (pngMinimal ++ mkFullChunk [75] [86])
    (by decide) (by decide)

/-- Claim C7: injection is not idempotent.  On a buffer where the
first injection succeeds (the scan finds its offset in bounds),
injecting a second time with the same key and text succeeds as well
and yields both inserted chunks, one immediately after the other at
the same offset, not a replacement: the final length grows by two full
chunk sizes. -/
theorem claim_C7_not_idempotent (b kb tb : List Nat) (r : Nat)
    (hsig : pngSigOk b = true)
    (hpos : findInsertPos b = Except.ok r) (hr : r ≤ b.length)
    (hcd : kb.length + 1 + tb.length < 4294967296) :
    addPngMetadata b kb tb = Except.ok (b.take r ++ mkFullChunk kb tb ++ b.drop r)
    ∧ addPngMetadata (b.take r ++ mkFullChunk kb tb ++ b.drop r) kb tb
        = Except.ok (b.take r ++ mkFullChunk kb tb ++ mkFullChunk kb tb ++ b.drop r)
    ∧ (b.take r ++ mkFullChunk kb tb ++ mkFullChunk kb tb ++ b.drop r).length
        = b.length + 2 * (12 + kb.length + 1 + tb.length) := by
  set C := mkFullChunk kb tb with hCdef
  have hscan : scanFuel (b.length + 1) 8 b = some (Except.ok r) := findInsertPos_some b r hpos
  have h8r : 8 ≤ r := scanFuel_le (b.length + 1) 8 r b hscan
  have hClen : C.length = 12 + (kb.length + 1 + tb.length) := length_mkFullChunk kb tb
  have htake : (b.take r).length = r := by rw [List.length_take]; omega
  have hout1 : addPngMetadata b kb tb = Except.ok (b.take r ++ C ++ b.drop r) :=
    addPngMetadata_ok b kb tb r hsig hpos hr
  set tail := C ++ b.drop r with htaildef
  have hassoc : b.take r ++ C ++ b.drop r = b.take r ++ tail := by
    rw [htaildef, List.append_assoc]
  have hBlen : (b.take r ++ tail).length = b.length + C.length := by
    rw [htaildef]
    simp [List.length_append, htake, List.length_drop]
    omega
  have hsigB : pngSigOk (b.take r ++ tail) = true :=
    pngSigOk_take_append b tail r (by omega) hr hsig
  have hcd2 : (mkChunkData kb tb).length < 4294967296 := by
    rw [length_mkChunkData]; exact hcd
  have hlenGoal : (b.take r ++ C ++ C ++ b.drop r).length
      = b.length + 2 * (12 + kb.length + 1 + tb.length) := by
    simp [List.length_append, htake, List.length_drop, hClen]
    omega
  rcases scanFuel_replay (b.length + 1) 8 r b tail hscan hr with hleft | ⟨hrb, hcont⟩
  · have hscanB : scanFuel ((b.take r ++ tail).length + 1) 8 (b.take r ++ tail)
        = some (Except.ok r) := hleft _ (by omega)
    have hposB : findInsertPos (b.take r ++ tail) = Except.ok r :=
      findInsertPos_eq _ _ hscanB
    have hout2 := addPngMetadata_ok (b.take r ++ tail) kb tb r hsigB hposB (by omega)
    refine ⟨hout1, ?_, hlenGoal⟩
    rw [hassoc, hout2, List.take_left' htake, List.drop_left' htake, htaildef]
    simp only [← hCdef, List.append_assoc]
  · have hdropnil : b.drop r = [] := by rw [hrb]; exact List.drop_length b
    have htakeall : b.take r = b := by rw [hrb]; exact List.take_length b
    have htailC : tail = C := by rw [htaildef, hdropnil, List.append_nil]
    have hBeq : b.take r ++ tail = b ++ C := by rw [htakeall, htailC]
    have hover : scanFuel 2 r (b.take r ++ tail)
        = some (Except.ok ((b.take r ++ tail).length)) := by
      rw [hBeq, hrb, hCdef]
      exact scanFuel_over_chunk b kb tb hcd2
    have hcont2 := hcont 2 _ hover
    have hfuel : b.length + 1 + 2 ≤ (b.take r ++ tail).length + 1 := by
      rw [hBlen]; omega
    have hscanB : scanFuel ((b.take r ++ tail).length + 1) 8 (b.take r ++ tail)
        = some (Except.ok ((b.take r ++ tail).length)) :=
      scanFuel_mono _ _ _ _ _ hcont2 hfuel
    have hposB : findInsertPos (b.take r ++ tail)
        = Except.ok ((b.take r ++ tail).length) := findInsertPos_eq _ _ hscanB
    have hout2 := addPngMetadata_ok (b.take r ++ tail) kb tb
      ((b.take r ++ tail).length) hsigB hposB (Nat.le_refl _)
    refine ⟨hout1, ?_, hlenGoal⟩
    rw [hassoc, hout2, List.take_length, List.drop_length, List.append_nil,
      htailC, htakeall, hdropnil, List.append_nil]

/-- Witness for claim C7 on the minimal buffer: both injected chunks
are present after injecting twice. -/
theorem claim_C7_witness :
    addPngMetadata pngMinimal [75] [86]
      = Except.ok (pngMinimal.take 20 ++ mkFullChunk [75] [86] ++ pngMinimal.drop 20)
    ∧ addPngMetadata (pngMinimal.take 20 ++ mkFullChunk [75] [86] ++ pngMinimal.drop 20)
        [75] [86]
      = Except.ok (pngMinimal.take 20 ++ mkFullChunk [75] [86] ++ mkFullChunk [75] [86]
          ++ pngMinimal.drop 20)
    ∧ (pngMinimal.take 20 ++ mkFullChunk [75] [86] ++ mkFullChunk [75] [86]
        ++ pngMinimal.drop 20).length
      = pngMinimal.length + 2 * (12 + 1 + 1 + 1) :=
  claim_C7_not_idempotent pngMinimal [75] [86] 20
    (by decide) (by decide) (by decide) (by decide)

end PngMeta
